import Mathlib

/-!
# Verification of the napari Labels-layer editing engine

A shallow embedding of the Labels layer editing engine described in the
repository's design specification, together with theorems settling the
frozen claims about it.  The implementation modules themselves are not
present in this source snapshot (only their test suites are), so every
definition below is modelled from the specification's description of the
missing code, constrained by the behaviour asserted in
`napari/layers/labels/_tests/test_labels.py`.
-/

namespace NapariLabels

/-- An RGBA color with channel values in `[0, 1]`, represented over `ℚ`. -/
structure RGBA where
  r : ℚ
  g : ℚ
  b : ℚ
  a : ℚ
deriving DecidableEq, Repr

/-- The fully transparent color (alpha 0). -/
def RGBA.transparent : RGBA := ⟨0, 0, 0, 0⟩

/-- The channels of a color as a list; every color is a length-4 array. -/
def RGBA.toList (c : RGBA) : List ℚ := [c.r, c.g, c.b, c.a]

/-- Modelled from the spec: the multiplicative/XOR scrambling step of the
cyclic colormap (§4.2, missing `napari/utils/colormaps`): the label is
reduced to 32 bits, scrambled by a multiplicative hash followed by an XOR
shift, and reduced modulo the palette size. -/
def hash_label (label : ℤ) (num_colors : ℕ) : ℕ :=
  let x : ℕ := (label.emod 4294967296).toNat
  let y : ℕ := (x * 2654435761) % 4294967296
  let z : ℕ := y ^^^ (y / 65536)
  z % num_colors

/-- Modelled from the spec: `CyclicLabelColormap` (§3, §4.2, missing
`napari/utils/colormaps`): a procedurally generated repeating palette with a
reserved transparent background value, plus the selection state used when
`show_selected_label` is active. -/
structure CyclicLabelColormap where
  colors : List RGBA
  background_value : ℤ
  selection : ℤ
  use_selection : Bool
deriving DecidableEq, Repr

/-- Modelled from the spec: the base cyclic mapping (§4.2): the background
value maps to the transparent color, every other label is hashed into the
palette. -/
def CyclicLabelColormap.map_base (cm : CyclicLabelColormap) (label : ℤ) : RGBA :=
  if label = cm.background_value then RGBA.transparent
  else cm.colors.getD (hash_label label cm.colors.length) RGBA.transparent

/-- Modelled from the spec: the full cyclic mapping including the
`show_selected_label` post-processing stage (§4.2): when selection is active
every label other than the selected one maps to the single "none" color
(the transparent color). -/
def CyclicLabelColormap.map (cm : CyclicLabelColormap) (label : ℤ) : RGBA :=
  if cm.use_selection ∧ label ≠ cm.selection then RGBA.transparent
  else cm.map_base label

/-- Modelled from the spec: `DirectLabelColormap` (§3, §4.2, missing
`napari/utils/colormaps`): an explicit dictionary from label to color, a
default color for unmapped labels, and a background value whose color is
transparent unless the dictionary explicitly overrides it. -/
structure DirectLabelColormap where
  color_dict : List (ℤ × RGBA)
  default_color : RGBA
  background_value : ℤ
deriving DecidableEq, Repr

/-- Modelled from the spec: the direct mapping (§4.2): explicit entries win;
an absent background maps to transparent; any other absent label maps to the
default/none color. -/
def DirectLabelColormap.map (cm : DirectLabelColormap) (label : ℤ) : RGBA :=
  match cm.color_dict.lookup label with
  | some c => c
  | none => if label = cm.background_value then RGBA.transparent else cm.default_color

/-- The integer dtypes of backing label arrays, plus the non-integer dtypes
the Labels layer must reject or promote (spec §7). -/
inductive DType where
  | uint8
  | int8
  | uint16
  | int16
  | uint32
  | int32
  | uint64
  | int64
  | boolean
  | float32
  | float64
deriving DecidableEq, Repr

/-- Whether a dtype is floating point. -/
def DType.is_floating : DType → Bool
  | .float32 => true
  | .float64 => true
  | _ => false

/-- Whether a dtype is an integer dtype (booleans and floats are not). -/
def DType.is_integer : DType → Bool
  | .boolean => false
  | .float32 => false
  | .float64 => false
  | _ => true

/-- The width of the dtype in bytes. -/
def DType.itemsize : DType → ℕ
  | .uint8 => 1
  | .int8 => 1
  | .boolean => 1
  | .uint16 => 2
  | .int16 => 2
  | .uint32 => 4
  | .int32 => 4
  | .float32 => 4
  | .uint64 => 8
  | .int64 => 8
  | .float64 => 8

/-- Modelled from the spec: the dtype validation performed at construction
and on data reassignment (§7, missing `napari/layers/labels/labels.py`):
floating-point data raises `InvalidLabelTypeError`; boolean data is silently
promoted to a small integer dtype; integer data is kept as is. -/
def ensure_int_labels (d : DType) : Except String DType :=
  if d.is_floating then Except.error "only integer types are supported"
  else match d with
    | .boolean => Except.ok .int8
    | _ => Except.ok d

/-- The edit-mode state machine values of a Labels layer (spec §4.3). -/
inductive Mode where
  | pan_zoom
  | transform
  | pick
  | paint
  | fill
  | erase
  | polygon
deriving DecidableEq, Repr

/-- The state of a Labels layer needed by the claims: backing data (flattened),
dtype, edit mode, editability, contour width, selection state and colormap. -/
structure LabelsLayer where
  data : List ℤ
  dtype : DType
  mode : Mode
  editable : Bool
  mouse_pan : Bool
  contour : ℤ
  brush_size : ℕ
  preserve_labels : Bool
  selected_label : ℤ
  prev_selected_label : Option ℤ
  show_selected_label : Bool
  colormap : CyclicLabelColormap
deriving DecidableEq, Repr

/-- Modelled from the spec: the colormap actually used for rendering: the
layer's base cyclic colormap with the `show_selected_label` /
`selected_label` filtering state applied (§4.2). -/
def LabelsLayer.current_colormap (l : LabelsLayer) : CyclicLabelColormap :=
  { l.colormap with
      use_selection := l.show_selected_label
      selection := l.selected_label }

/-- Modelled from the spec: `get_color` (§6, missing
`napari/layers/labels/labels.py`): `None` for the background label, the
none color for a `None` query, and the current colormap's color otherwise. -/
def LabelsLayer.get_color (l : LabelsLayer) (label : Option ℤ) : Option RGBA :=
  match label with
  | none => some RGBA.transparent
  | some lab =>
      if lab = l.colormap.background_value then none
      else some (l.current_colormap.map lab)

/-- Modelled from the spec: the `contour` property setter (§7, missing
`napari/layers/labels/labels.py`): a negative contour distance is rejected
with an error and the layer is left unchanged; a non-negative one is stored.
Returns the resulting layer together with the error, if any. -/
def LabelsLayer.set_contour (l : LabelsLayer) (v : ℤ) : LabelsLayer × Option String :=
  if v < 0 then (l, some "contour value must be >= 0")
  else ({ l with contour := v }, none)

/-- Modelled from the spec: the mode setter of the edit-mode state machine
(§4.3): exactly one mode active at a time, `mouse_pan` only in `pan_zoom`. -/
def LabelsLayer.set_mode (l : LabelsLayer) (m : Mode) : LabelsLayer :=
  { l with mode := m, mouse_pan := m = Mode.pan_zoom }

/-- Modelled from the spec: the `editable` setter (missing
`napari/layers/labels/labels.py`, behaviour fixed by `test_changing_modes`):
making a layer non-editable forces the mode back to `pan_zoom`. -/
def LabelsLayer.set_editable (l : LabelsLayer) (b : Bool) : LabelsLayer :=
  let l2 := { l with editable := b }
  if b then l2 else l2.set_mode Mode.pan_zoom

/-- A default layer state used by the constructor model. -/
def defaultLayer (data : List ℤ) (d : DType) : LabelsLayer where
  data := data
  dtype := d
  mode := Mode.pan_zoom
  editable := true
  mouse_pan := true
  contour := 0
  brush_size := 10
  preserve_labels := false
  selected_label := 1
  prev_selected_label := none
  show_selected_label := false
  colormap := ⟨[⟨1, 0, 0, 1⟩, ⟨0, 1, 0, 1⟩, ⟨0, 0, 1, 1⟩], 0, 1, false⟩

/-- Modelled from the spec: the Labels constructor's dtype handling (§7):
construction fails on non-integer data and otherwise produces a layer whose
dtype is the (possibly promoted) integer dtype. -/
def labels_construct (data : List ℤ) (d : DType) : Except String LabelsLayer :=
  (ensure_int_labels d).map (fun d2 => defaultLayer data d2)

/-- Modelled from the spec: reassigning `layer.data` revalidates the dtype
exactly like construction (§7). -/
def LabelsLayer.set_data (l : LabelsLayer) (data : List ℤ) (d : DType) :
    Except String LabelsLayer :=
  (ensure_int_labels d).map (fun d2 => { l with data := data, dtype := d2 })

/-- Modelled from the spec: `minimum_dtype_for_labels` (§4.2, missing
`napari/utils/colormaps`): the smallest unsigned integer width (in bits)
able to index the palette; 8 bits up to 255 slots, 16 bits up to 65535,
else a 32-bit fallback. -/
def minimum_dtype_bits_for_labels (num_colors : ℕ) : ℕ :=
  if num_colors ≤ 255 then 8
  else if num_colors ≤ 65535 then 16
  else 32

/-- Modelled from the spec and the view-dtype tests (`test_view_dtype`,
`test_view_dtype_int16`): the dtype width (in bits) of the quantized render
buffer of the displayed slice.  Data whose dtype already fits in one or two
bytes is passed through at its own width (the texture holds the raw labels
and the shader hashes them); only wider data is quantized to the minimum
dtype for the palette size. -/
def texture_dtype_bits (data_dtype : DType) (num_colors : ℕ) : ℕ :=
  if data_dtype.itemsize = 1 then 8
  else if data_dtype.itemsize = 2 then 16
  else minimum_dtype_bits_for_labels num_colors

/-- Modelled from the spec: the `preserve_labels` filter applied to the
candidate index set of a paint or fill (§4.3): keep only positions whose
current value equals `background_value`, or — when erasing after the
selected and background labels were swapped — the previously selected
label. -/
def edit_keep (preserve : Bool) (bg new_label : ℤ) (prev_selected : Option ℤ)
    (v : ℤ) : Bool :=
  !preserve || v = bg || (new_label = bg && prev_selected = some v)

/-- Helper for `apply_labels_edit`: walks the flattened array, writing
`new_label` at the positions (offset by `k`) that are in the candidate set
and pass the keep-filter on the pre-edit value. -/
def apply_edit_from (idxs : List ℕ) (keep : ℤ → Bool) (new_label : ℤ) :
    ℕ → List ℤ → List ℤ
  | _, [] => []
  | k, v :: rest =>
      (if idxs.contains k && keep v then new_label else v)
        :: apply_edit_from idxs keep new_label (k + 1) rest

/-- Modelled from the spec: the common application step of paint and fill
(§4.3/§4.4): given the candidate index set already computed upstream (the
brush ball intersected with bounds for paint, the connected component for
fill), filter it by the `preserve_labels` rule against the pre-edit values
and write `new_label` at the surviving positions. -/
def apply_labels_edit (data : List ℤ) (idxs : List ℕ) (new_label : ℤ)
    (preserve : Bool) (bg : ℤ) (prev_selected : Option ℤ) : List ℤ :=
  apply_edit_from idxs (edit_keep preserve bg new_label prev_selected) new_label 0 data

/-- Modelled from the spec: `EditOperation` (§3): an atomic reversible
change, a list of (flattened index, old value, new value) deltas. -/
structure EditOperation where
  deltas : List (ℕ × ℤ × ℤ)
deriving DecidableEq, Repr

/-- Re-applies the new values of an operation (redo direction, §4.5). -/
def applyNew (a : List ℤ) (op : EditOperation) : List ℤ :=
  op.deltas.foldl (fun acc d => acc.set d.1 d.2.2) a

/-- Re-applies the recorded old values of an operation (undo direction,
§4.5). -/
def applyOld (a : List ℤ) (op : EditOperation) : List ℤ :=
  op.deltas.foldl (fun acc d => acc.set d.1 d.2.1) a

/-- Modelled from the spec: `UndoStack` (§3/§4.5): an ordered sequence of
edit operations with a cursor and a configured depth limit. -/
structure UndoStack where
  ops : List EditOperation
  cursor : ℕ
  limit : ℕ
deriving DecidableEq, Repr

/-- A fresh stack with the given depth limit. -/
def emptyStack (limit : ℕ) : UndoStack := ⟨[], 0, limit⟩

/-- Modelled from the spec: `push` (§4.5): append at the cursor, discarding
the redo branch, and evict the oldest entries once the depth limit is
exceeded. -/
def UndoStack.push (s : UndoStack) (op : EditOperation) : UndoStack :=
  let kept := s.ops.take s.cursor ++ [op]
  if s.limit < kept.length then
    { ops := kept.drop (kept.length - s.limit), cursor := s.limit, limit := s.limit }
  else
    { ops := kept, cursor := kept.length, limit := s.limit }

/-- The editing state the undo/redo claims quantify over: the backing array
(flattened) together with the undo stack. -/
structure EditState where
  arr : List ℤ
  stack : UndoStack
deriving DecidableEq, Repr

/-- Modelled from the spec: recording an edit operation (§4.4): the old
values captured at `idxs` are exactly the pre-write values, in order. -/
def mkOp (a : List ℤ) (idxs : List ℕ) (v : ℤ) : EditOperation :=
  ⟨idxs.map (fun i => (i, a.getD i 0, v))⟩

/-- Modelled from the spec: one completed edit (§4.4/§4.5): apply the new
values through the write adapter and push the recorded delta. -/
def doEdit (s : EditState) (idxs : List ℕ) (v : ℤ) : EditState :=
  let op := mkOp s.arr idxs v
  ⟨applyNew s.arr op, s.stack.push op⟩

/-- A sequence of completed edits, each a candidate index set with a new
value. -/
def runEdits (s : EditState) (es : List (List ℕ × ℤ)) : EditState :=
  es.foldl (fun t e => doEdit t e.1 e.2) s

/-- Modelled from the spec: `undo` (§4.5): if the cursor is positive,
decrement it and re-apply the old values of the operation at the new cursor
position, returning `true`; otherwise a no-op returning `false`. -/
def undoStep (s : EditState) : EditState × Bool :=
  if 0 < s.stack.cursor then
    let c := s.stack.cursor - 1
    let op := s.stack.ops.getD c ⟨[]⟩
    (⟨applyOld s.arr op, { s.stack with cursor := c }⟩, true)
  else (s, false)

/-- Modelled from the spec: `redo` (§4.5): if the cursor is below the stack
length, re-apply the new values of the operation at the cursor and increment
it, returning `true`; otherwise a no-op returning `false`. -/
def redoStep (s : EditState) : EditState × Bool :=
  if s.stack.cursor < s.stack.ops.length then
    let op := s.stack.ops.getD s.stack.cursor ⟨[]⟩
    (⟨applyNew s.arr op, { s.stack with cursor := s.stack.cursor + 1 }⟩, true)
  else (s, false)

/-- `undo` iterated `n` times. -/
def undoN : ℕ → EditState → EditState
  | 0, s => s
  | n + 1, s => undoN n (undoStep s).1

/-- `redo` iterated `n` times. -/
def redoN : ℕ → EditState → EditState
  | 0, s => s
  | n + 1, s => redoN n (redoStep s).1

/-- One displayed axis of the slab intersection: the ray origin and
direction component on that axis and the bounding-box interval. -/
structure SlabAxis where
  p : ℚ
  d : ℚ
  lo : ℚ
  hi : ℚ
deriving DecidableEq, Repr

/-- One step of the slab method (per axis).  The accumulator is `none` on a
certain miss, `some none` while no axis has bounded the ray parameter yet,
and `some (some (u, v))` once the parameter is confined to `[u, v]`.  An
axis with zero direction component only checks that the origin lies inside
its slab. -/
def slabStep (ax : SlabAxis) (acc : Option (Option (ℚ × ℚ))) :
    Option (Option (ℚ × ℚ)) :=
  match acc with
  | none => none
  | some cur =>
      if ax.d = 0 then
        if ax.lo ≤ ax.p ∧ ax.p ≤ ax.hi then some cur else none
      else
        let t0 := min ((ax.lo - ax.p) / ax.d) ((ax.hi - ax.p) / ax.d)
        let t1 := max ((ax.lo - ax.p) / ax.d) ((ax.hi - ax.p) / ax.d)
        match cur with
        | none => some (some (t0, t1))
        | some (u, v) => some (some (max u t0, min v t1))

/-- The slab accumulator after processing every axis. -/
def slabAxes (axes : List SlabAxis) : Option (Option (ℚ × ℚ)) :=
  axes.foldr slabStep (some none)

/-- Modelled from the spec: the line/axis-aligned-bounding-box intersection
used for 3D picking (§4.1, missing `napari/utils/geometry.py`): the slab
method, returning the parameter interval `[t0, t1]` of the line inside the
box, or `none` when the line misses the box. -/
def intersect_line_with_bounding_box (axes : List SlabAxis) : Option (ℚ × ℚ) :=
  match slabAxes axes with
  | some (some (t0, t1)) => if t0 ≤ t1 then some (t0, t1) else none
  | _ => none

/-- Modelled from the spec: the world-to-data transform of a point (§4.1):
per-axis `(x - translate) / scale`. -/
def world_to_data_point : List ℚ → List ℚ → List ℚ → List ℚ
  | s :: ss, tr :: trs, x :: xs => (x - tr) / s :: world_to_data_point ss trs xs
  | _, _, _ => []

/-- Modelled from the spec: the world-to-data transform of a direction
vector (§4.1): per-axis `d / scale` (no translation). -/
def world_to_data_vector (scale dir : List ℚ) : List ℚ :=
  List.zipWith (fun s d => d / s) scale dir

/-- The point of the data-space ray at parameter `t` (all axes; the
direction is zero on non-displayed axes, which therefore keep the clicked
coordinate). -/
def ray_point (p d : List ℚ) (t : ℚ) : List ℚ :=
  List.zipWith (fun pi di => pi + t * di) p d

/-- The displayed axes of the slab computation: on each displayed dimension
`i` the data bounding box is `[0, shape i]`. -/
def displayed_axes (pd dd shape : List ℚ) (dims : List ℕ) : List SlabAxis :=
  dims.map (fun i => ⟨pd.getD i 0, dd.getD i 0, 0, shape.getD i 0⟩)

/-- Modelled from the spec: `get_ray_intersections` (§4.1, missing
`napari/layers/base/base.py`): transform the clicked world position and the
view direction to data space, intersect the resulting line with the data
bounding box on the displayed dimensions, and return the entry and exit
points in data coordinates, or `(none, none)` when the ray misses the
box. -/
def get_ray_intersections (scale translate shape position direction : List ℚ)
    (dims : List ℕ) : Option (List ℚ) × Option (List ℚ) :=
  let pd := world_to_data_point scale translate position
  let dd := world_to_data_vector scale direction
  match intersect_line_with_bounding_box (displayed_axes pd dd shape dims) with
  | none => (none, none)
  | some (t0, t1) => (some (ray_point pd dd t0), some (ray_point pd dd t1))

/-- The ray point at parameter `t` lies inside the data bounding box on
every displayed dimension. -/
def InDataBoundingBox (pd dd shape : List ℚ) (dims : List ℕ) (t : ℚ) : Prop :=
  ∀ i ∈ dims,
    (0 : ℚ) ≤ pd.getD i 0 + t * dd.getD i 0 ∧
      pd.getD i 0 + t * dd.getD i 0 ≤ shape.getD i 0

/-- The per-axis slab constraints hold at parameter `t`. -/
def InSlab (axes : List SlabAxis) (t : ℚ) : Prop :=
  ∀ ax ∈ axes, ax.lo ≤ ax.p + t * ax.d ∧ ax.p + t * ax.d ≤ ax.hi

/-- The meaning of the slab accumulator at parameter `t`. -/
def SlabAccOK : Option (Option (ℚ × ℚ)) → ℚ → Prop
  | none, _ => False
  | some none, _ => True
  | some (some (u, v)), t => u ≤ t ∧ t ≤ v

/-- C3: with `show_selected_label` enabled, the layer's colormap maps the
selected label to the base colormap's color and every other label —
including the background label — to the single "none" (transparent)
color. -/
theorem show_selected_label_filtering (l : LabelsLayer)
    (h : l.show_selected_label = true) :
    l.current_colormap.map l.selected_label
        = l.colormap.map_base l.selected_label ∧
    ∀ label : ℤ, label ≠ l.selected_label →
      l.current_colormap.map label = RGBA.transparent := by
  constructor
  · simp [LabelsLayer.current_colormap, CyclicLabelColormap.map,
      CyclicLabelColormap.map_base]
  · intro label hne
    simp [LabelsLayer.current_colormap, CyclicLabelColormap.map, h, hne]

/-- Witness for C3 at a concrete layer with `show_selected_label` on. -/
theorem show_selected_label_filtering_witness :
    ({ defaultLayer [] DType.uint8 with show_selected_label := true }
        : LabelsLayer).show_selected_label = true ∧
    (({ defaultLayer [] DType.uint8 with show_selected_label := true }
        : LabelsLayer).current_colormap.map
        ({ defaultLayer [] DType.uint8 with show_selected_label := true }
          : LabelsLayer).selected_label
      = ({ defaultLayer [] DType.uint8 with show_selected_label := true }
          : LabelsLayer).colormap.map_base
          ({ defaultLayer [] DType.uint8 with show_selected_label := true }
            : LabelsLayer).selected_label ∧
     ∀ label : ℤ,
       label ≠ ({ defaultLayer [] DType.uint8 with show_selected_label := true }
         : LabelsLayer).selected_label →
       ({ defaultLayer [] DType.uint8 with show_selected_label := true }
           : LabelsLayer).current_colormap.map label = RGBA.transparent) :=
  ⟨rfl, show_selected_label_filtering _ rfl⟩

/-- C4: mapping the background value through a cyclic colormap always yields
alpha 0, and through a direct colormap it yields alpha 0 whenever no
explicit dictionary entry overrides the background's color. -/
theorem background_maps_to_alpha_zero (cm : CyclicLabelColormap)
    (dcm : DirectLabelColormap)
    (h : dcm.color_dict.lookup dcm.background_value = none) :
    (∀ c ∈ [cm.background_value].map cm.map, c.a = 0) ∧
    (∀ c ∈ [dcm.background_value].map dcm.map, c.a = 0) := by
  constructor
  · intro c hc
    simp only [List.map, List.mem_singleton] at hc
    subst hc
    by_cases hs : cm.use_selection ∧ cm.background_value ≠ cm.selection
    · simp [CyclicLabelColormap.map, hs, RGBA.transparent]
    · simp [CyclicLabelColormap.map, hs, CyclicLabelColormap.map_base,
        RGBA.transparent]
  · intro c hc
    simp only [List.map, List.mem_singleton] at hc
    subst hc
    simp [DirectLabelColormap.map, h, RGBA.transparent]

/-- Witness for C4 at a concrete cyclic and direct colormap (no entry for
the direct background value 0). -/
theorem background_maps_to_alpha_zero_witness :
    (DirectLabelColormap.color_dict ⟨[(1, ⟨0, 1, 0, 1⟩)], ⟨0, 0, 0, 1⟩, 0⟩).lookup
        (DirectLabelColormap.background_value ⟨[(1, ⟨0, 1, 0, 1⟩)], ⟨0, 0, 0, 1⟩, 0⟩)
      = none ∧
    ((∀ c ∈ [(CyclicLabelColormap.background_value
          ⟨[⟨1, 0, 0, 1⟩], 0, 1, false⟩)].map
          (CyclicLabelColormap.map ⟨[⟨1, 0, 0, 1⟩], 0, 1, false⟩), c.a = 0) ∧
     (∀ c ∈ [(DirectLabelColormap.background_value
          ⟨[(1, ⟨0, 1, 0, 1⟩)], ⟨0, 0, 0, 1⟩, 0⟩)].map
          (DirectLabelColormap.map ⟨[(1, ⟨0, 1, 0, 1⟩)], ⟨0, 0, 0, 1⟩, 0⟩),
        c.a = 0)) :=
  ⟨by decide, background_maps_to_alpha_zero _ _ (by decide)⟩

/-- C5: setting a negative contour is rejected with an error and leaves the
layer — in particular its contour value — unchanged. -/
theorem contour_setter_rejects_negative (l : LabelsLayer) (v : ℤ) (h : v < 0) :
    (l.set_contour v).2 = some "contour value must be >= 0" ∧
    (l.set_contour v).1 = l ∧
    (l.set_contour v).1.contour = l.contour := by
  simp [LabelsLayer.set_contour, h]

/-- Witness for C5 at a concrete layer and contour value -1. -/
theorem contour_setter_rejects_negative_witness :
    (-1 : ℤ) < 0 ∧
    (((defaultLayer [] DType.uint8).set_contour (-1)).2
        = some "contour value must be >= 0" ∧
     ((defaultLayer [] DType.uint8).set_contour (-1)).1 = defaultLayer [] DType.uint8 ∧
     ((defaultLayer [] DType.uint8).set_contour (-1)).1.contour
        = (defaultLayer [] DType.uint8).contour) :=
  ⟨by decide, contour_setter_rejects_negative _ _ (by decide)⟩

/-- C6: floating-point data is rejected with a synchronous error both at
construction and on data reassignment, while boolean data never errors and
is promoted to an integer dtype. -/
theorem non_integer_dtype_handling (l : LabelsLayer) (data : List ℤ)
    (d : DType) (h : d.is_floating = true) :
    labels_construct data d = Except.error "only integer types are supported" ∧
    l.set_data data d = Except.error "only integer types are supported" ∧
    (∃ l2, labels_construct data DType.boolean = Except.ok l2 ∧
      l2.dtype.is_integer = true) ∧
    (∃ l2, l.set_data data DType.boolean = Except.ok l2 ∧
      l2.dtype.is_integer = true) := by
  refine ⟨?_, ?_, ?_, ?_⟩
  · simp [labels_construct, ensure_int_labels, h, Except.map]
  · simp [LabelsLayer.set_data, ensure_int_labels, h, Except.map]
  · exact ⟨defaultLayer data DType.int8, rfl, rfl⟩
  · exact ⟨{ l with data := data, dtype := DType.int8 }, rfl, rfl⟩

/-- Witness for C6 at float64 data. -/
theorem non_integer_dtype_handling_witness :
    DType.float64.is_floating = true ∧
    (labels_construct [] DType.float64
        = Except.error "only integer types are supported" ∧
     (defaultLayer [] DType.uint8).set_data [] DType.float64
        = Except.error "only integer types are supported" ∧
     (∃ l2, labels_construct [] DType.boolean = Except.ok l2 ∧
       l2.dtype.is_integer = true) ∧
     (∃ l2, (defaultLayer [] DType.uint8).set_data [] DType.boolean
        = Except.ok l2 ∧ l2.dtype.is_integer = true)) :=
  ⟨rfl, non_integer_dtype_handling _ _ _ rfl⟩

/-- C7 counterexample: `int16` data with the default-sized 50-color palette
produces a 16-bit render buffer even though the palette has at most 255
slots, exactly as `test_view_dtype_int16` asserts — refuting the claim that
8-bit quantization is used whenever the palette has at most 255 slots and
16-bit only when it exceeds them. -/
theorem texture_dtype_palette_counterexample :
    (50 : ℕ) ≤ 255 ∧ texture_dtype_bits DType.int16 50 = 16 := by decide

/-- C7 amended: the render buffer width is the data width for 1- and 2-byte
data (the raw labels are passed through), and for wider data it is 8 bits
when the palette has at most 255 slots and 16 bits when the palette has
between 256 and 65535 slots. -/
theorem texture_dtype_bits_spec (d : DType) (num_colors : ℕ) :
    (d.itemsize = 1 → texture_dtype_bits d num_colors = 8) ∧
    (d.itemsize = 2 → texture_dtype_bits d num_colors = 16) ∧
    (3 ≤ d.itemsize → num_colors ≤ 255 → texture_dtype_bits d num_colors = 8) ∧
    (3 ≤ d.itemsize → 255 < num_colors → num_colors ≤ 65535 →
      texture_dtype_bits d num_colors = 16) := by
  refine ⟨?_, ?_, ?_, ?_⟩
  · intro h1
    simp [texture_dtype_bits, h1]
  · intro h2
    simp [texture_dtype_bits, h2]
  · intro h3 hc
    have h1 : ¬ d.itemsize = 1 := by omega
    have h2 : ¬ d.itemsize = 2 := by omega
    simp [texture_dtype_bits, h1, h2, minimum_dtype_bits_for_labels, hc]
  · intro h3 hc1 hc2
    have h1 : ¬ d.itemsize = 1 := by omega
    have h2 : ¬ d.itemsize = 2 := by omega
    have hc : ¬ num_colors ≤ 255 := by omega
    simp [texture_dtype_bits, h1, h2, minimum_dtype_bits_for_labels, hc, hc2]

/-- Witness for C7 (amended) at `uint32` data and a 300-color palette. -/
theorem texture_dtype_bits_spec_witness :
    ((DType.uint32.itemsize = 1 → texture_dtype_bits DType.uint32 300 = 8) ∧
     (DType.uint32.itemsize = 2 → texture_dtype_bits DType.uint32 300 = 16) ∧
     (3 ≤ DType.uint32.itemsize → 300 ≤ 255 →
        texture_dtype_bits DType.uint32 300 = 8) ∧
     (3 ≤ DType.uint32.itemsize → 255 < 300 → 300 ≤ 65535 →
        texture_dtype_bits DType.uint32 300 = 16)) :=
  texture_dtype_bits_spec DType.uint32 300

/-- C9: for the default (selection off) cyclic colormap, `get_color` returns
`None` for the background label and a length-4 RGBA color for every other
label. -/
theorem get_color_background_none (l : LabelsLayer)
    (_h : l.show_selected_label = false) :
    l.get_color (some l.colormap.background_value) = none ∧
    ∀ label : ℤ, label ≠ l.colormap.background_value →
      ∃ c : RGBA, l.get_color (some label) = some c ∧ c.toList.length = 4 := by
  constructor
  · simp [LabelsLayer.get_color]
  · intro label hne
    refine ⟨l.current_colormap.map label, ?_, rfl⟩
    simp [LabelsLayer.get_color, hne]

/-- Witness for C9 at a concrete layer. -/
theorem get_color_background_none_witness :
    (defaultLayer [] DType.uint8).show_selected_label = false ∧
    ((defaultLayer [] DType.uint8).get_color
        (some (defaultLayer [] DType.uint8).colormap.background_value) = none ∧
     ∀ label : ℤ,
       label ≠ (defaultLayer [] DType.uint8).colormap.background_value →
       ∃ c : RGBA, (defaultLayer [] DType.uint8).get_color (some label)
          = some c ∧ c.toList.length = 4) :=
  ⟨rfl, get_color_background_none _ rfl⟩

/-- C10: setting `editable` to `false` forces the mode back to `pan_zoom`
regardless of the previously active mode, so a non-editable layer is never
in an editing mode. -/
theorem not_editable_forces_pan_zoom (l : LabelsLayer) :
    (l.set_editable false).mode = Mode.pan_zoom ∧
    (l.set_editable false).editable = false ∧
    (l.set_editable false).mouse_pan = true := by
  simp [LabelsLayer.set_editable, LabelsLayer.set_mode]

/-- The edit application preserves the array length. -/
theorem apply_edit_from_length (idxs : List ℕ) (keep : ℤ → Bool) (nl : ℤ) :
    ∀ (k : ℕ) (data : List ℤ),
      (apply_edit_from idxs keep nl k data).length = data.length := by
  intro k data
  induction data generalizing k with
  | nil => rfl
  | cons v rest ih => simp [apply_edit_from, ih]

/-- Pointwise description of the edit application for in-range positions. -/
theorem apply_edit_from_getD (idxs : List ℕ) (keep : ℤ → Bool) (nl : ℤ) :
    ∀ (data : List ℤ) (k i : ℕ), i < data.length →
      (apply_edit_from idxs keep nl k data).getD i 0
        = if idxs.contains (k + i) && keep (data.getD i 0) then nl
          else data.getD i 0 := by
  intro data
  induction data with
  | nil => intro k i h; simp at h
  | cons v rest ih =>
      intro k i h
      cases i with
      | zero => simp [apply_edit_from]
      | succ j =>
          have hj : j < rest.length := by simpa using h
          have := ih (k + 1) j hj
          have harith : k + 1 + j = k + (j + 1) := by omega
          simpa [apply_edit_from, harith] using this

/-- C2 counterexample: with `preserve_labels = True`, painting the
background label after swapping the selected and background labels (the
scenario of `test_paint_swap_with_preserve_labels`) overwrites a
non-background value: index 0 holds 2 (≠ background 0) before the paint but
0 afterwards. -/
theorem preserve_labels_swap_counterexample :
    (2 : ℤ) ≠ 0 ∧
    apply_labels_edit [2] [0] 0 true 0 (some 2) = [0] := by decide

/-- C2 amended: a `preserve_labels = True` paint or fill leaves every index
unchanged whose prior value differs from the background value, except for
indices holding the previously selected label while erasing after a
selected/background swap (which are deliberately erased). -/
theorem preserve_labels_invariant (data : List ℤ) (idxs : List ℕ)
    (new_label bg : ℤ) (prev_selected : Option ℤ) (i : ℕ)
    (hbg : data.getD i 0 ≠ bg)
    (hswap : ¬(new_label = bg ∧ prev_selected = some (data.getD i 0))) :
    (apply_labels_edit data idxs new_label true bg prev_selected).getD i 0
      = data.getD i 0 := by
  unfold apply_labels_edit
  by_cases hi : i < data.length
  · rw [apply_edit_from_getD idxs _ new_label data 0 i hi]
    have hkeep : ∀ v : ℤ, v ≠ bg → ¬(new_label = bg ∧ prev_selected = some v) →
        edit_keep true bg new_label prev_selected v = false := by
      intro v hv hsw
      unfold edit_keep
      by_cases hnl : new_label = bg
      · have hprev : prev_selected ≠ some v := fun hp => hsw ⟨hnl, hp⟩
        simp [hv, hprev]
      · simp [hv, hnl]
    rw [hkeep _ hbg hswap, Bool.and_false, if_neg (by simp)]
  · have h1 : data.length ≤ i := by omega
    have h2 : (apply_edit_from idxs
        (edit_keep true bg new_label prev_selected) new_label 0 data).length
          ≤ i := by
      rw [apply_edit_from_length]
      exact h1
    rw [List.getD_eq_default _ _ h2, List.getD_eq_default _ _ h1]

/-- Witness for C2 (amended): a concrete preserve-labels paint over
`[1, 0, 3]` touching every index leaves the non-background values 1 and 3
in place. -/
theorem preserve_labels_invariant_witness :
    ((1 : ℤ) ≠ 0 ∧ ¬((2 : ℤ) = 0 ∧ (none : Option ℤ) = some 1)) ∧
    (apply_labels_edit [1, 0, 3] [0, 1, 2] 2 true 0 none).getD 0 0
      = ([1, 0, 3] : List ℤ).getD 0 0 :=
  ⟨⟨by decide, by decide⟩,
    preserve_labels_invariant [1, 0, 3] [0, 1, 2] 2 0 none 0 (by decide)
      (by decide)⟩

/-- `List.set` described through `getD`: the written value at the written
in-range position, the original value elsewhere. -/
theorem getD_set_general (l : List ℤ) (i j : ℕ) (v : ℤ) :
    (l.set i v).getD j 0 = if i = j ∧ i < l.length then v else l.getD j 0 := by
  induction l generalizing i j with
  | nil => simp
  | cons x xs ih =>
      cases i with
      | zero =>
          cases j with
          | zero => simp
          | succ j2 => simp
      | succ i2 =>
          cases j with
          | zero => simp
          | succ j2 =>
              have harith : (i2 = j2 ∧ i2 < xs.length)
                  ↔ (i2 + 1 = j2 + 1 ∧ i2 + 1 < xs.length + 1) := by omega
              simp only [List.set_cons_succ, List.getD_cons_succ, ih,
                List.length_cons]
              rw [if_congr harith rfl rfl]

/-- Folding index/value writes over an array preserves its length. -/
theorem foldl_set_length (f : ℕ × ℤ × ℤ → ℤ) (ds : List (ℕ × ℤ × ℤ)) :
    ∀ b : List ℤ,
      (ds.foldl (fun acc d => acc.set d.1 (f d)) b).length = b.length := by
  induction ds with
  | nil => intro b; rfl
  | cons d ds ih =>
      intro b
      rw [List.foldl_cons, ih, List.length_set]

/-- Positions no delta touches are unchanged by a fold of writes. -/
theorem foldl_set_getD_untouched (f : ℕ × ℤ × ℤ → ℤ)
    (ds : List (ℕ × ℤ × ℤ)) :
    ∀ (b : List ℤ) (j : ℕ), (∀ d ∈ ds, d.1 ≠ j) →
      (ds.foldl (fun acc d => acc.set d.1 (f d)) b).getD j 0 = b.getD j 0 := by
  induction ds with
  | nil => intro b j _; rfl
  | cons d ds ih =>
      intro b j hj
      rw [List.foldl_cons, ih _ j (fun e he => hj e (List.mem_cons_of_mem d he)),
        getD_set_general, if_neg (fun hc => hj d (List.mem_cons_self d ds) hc.1)]

/-- Applying the new values of an operation preserves the array length. -/
theorem applyNew_length (a : List ℤ) (op : EditOperation) :
    (applyNew a op).length = a.length :=
  foldl_set_length (fun d => d.2.2) op.deltas a

/-- Applying the old values of an operation preserves the array length. -/
theorem applyOld_length (a : List ℤ) (op : EditOperation) :
    (applyOld a op).length = a.length :=
  foldl_set_length (fun d => d.2.1) op.deltas a

/-- Writing back recorded old values restores the pre-edit array, pointwise:
`b` agrees with `a` away from the touched indices and every delta's old
value was read from `a`. -/
theorem foldl_setOld_restore (ds : List (ℕ × ℤ × ℤ)) (a : List ℤ) :
    ∀ b : List ℤ, b.length = a.length →
      (∀ d ∈ ds, d.2.1 = a.getD d.1 0) →
      (∀ j : ℕ, (∀ d ∈ ds, d.1 ≠ j) → b.getD j 0 = a.getD j 0) →
      ∀ j : ℕ,
        (ds.foldl (fun acc d => acc.set d.1 d.2.1) b).getD j 0 = a.getD j 0 := by
  induction ds with
  | nil => intro b _ _ hagree j; exact hagree j (by simp)
  | cons d ds ih =>
      intro b hlen holds hagree j
      rw [List.foldl_cons]
      apply ih (b.set d.1 d.2.1) (by rw [List.length_set]; exact hlen)
        (fun e he => holds e (List.mem_cons_of_mem d he))
      intro j2 hj2
      rw [getD_set_general]
      by_cases hd : d.1 = j2
      · subst hd
        by_cases hlt : d.1 < b.length
        · rw [if_pos ⟨rfl, hlt⟩]
          exact holds d (List.mem_cons_self d ds)
        · rw [if_neg (fun hc => hlt hc.2)]
          have h1 : b.length ≤ d.1 := by omega
          have h2 : a.length ≤ d.1 := by omega
          rw [List.getD_eq_default _ _ h1, List.getD_eq_default _ _ h2]
      · rw [if_neg (fun hc => hd hc.1)]
        apply hagree j2
        intro e he
        rcases List.mem_cons.mp he with h1 | h1
        · rw [h1]; exact hd
        · exact hj2 e h1

/-- The undo direction inverts the redo direction for an operation whose
old values were recorded from the pre-edit array. -/
theorem applyOld_applyNew (a : List ℤ) (idxs : List ℕ) (v : ℤ) :
    applyOld (applyNew a (mkOp a idxs v)) (mkOp a idxs v) = a := by
  have hlen : (applyNew a (mkOp a idxs v)).length = a.length :=
    applyNew_length a _
  have holds : ∀ d ∈ (mkOp a idxs v).deltas, d.2.1 = a.getD d.1 0 := by
    intro d hd
    simp only [mkOp, List.mem_map] at hd
    obtain ⟨i, _, rfl⟩ := hd
    rfl
  have hagree : ∀ j : ℕ, (∀ d ∈ (mkOp a idxs v).deltas, d.1 ≠ j) →
      (applyNew a (mkOp a idxs v)).getD j 0 = a.getD j 0 := by
    intro j hj
    exact foldl_set_getD_untouched (fun d => d.2.2) _ a j hj
  have key : ∀ j : ℕ,
      (applyOld (applyNew a (mkOp a idxs v)) (mkOp a idxs v)).getD j 0
        = a.getD j 0 :=
    foldl_setOld_restore (mkOp a idxs v).deltas a _ hlen holds hagree
  have hlen2 :
      (applyOld (applyNew a (mkOp a idxs v)) (mkOp a idxs v)).length
        = a.length := by
    rw [applyOld_length, hlen]
  apply List.ext_getElem hlen2
  intro i h1 h2
  have hk := key i
  rwa [List.getD_eq_getElem _ 0 h1, List.getD_eq_getElem _ 0 h2] at hk

/-- A list of edit operations is a valid history from `a` to `b`: each
operation's old values were recorded from the state it was applied to
(§4.4), and applying the new values in order leads from `a` to `b`. -/
def Chain : List ℤ → List EditOperation → List ℤ → Prop
  | a, [], b => b = a
  | a, op :: rest, b =>
      (∃ idxs v, op = mkOp a idxs v) ∧ Chain (applyNew a op) rest b

/-- Unfolding `Chain` at the empty history. -/
theorem chain_nil (a b : List ℤ) : Chain a [] b ↔ b = a := Iff.rfl

/-- Unfolding `Chain` at a first operation. -/
theorem chain_cons (a b : List ℤ) (op : EditOperation)
    (rest : List EditOperation) :
    Chain a (op :: rest) b ↔
      (∃ idxs v, op = mkOp a idxs v) ∧ Chain (applyNew a op) rest b := Iff.rfl

/-- Splitting a history at its last operation. -/
theorem chain_snoc (xs : List EditOperation) (op : EditOperation) :
    ∀ a b : List ℤ, Chain a (xs ++ [op]) b ↔
      ∃ m : List ℤ, Chain a xs m ∧ (∃ idxs v, op = mkOp m idxs v) ∧
        b = applyNew m op := by
  induction xs with
  | nil =>
      intro a b
      constructor
      · rintro ⟨hop, hch⟩
        exact ⟨a, rfl, hop, hch⟩
      · rintro ⟨m, hm, hop, hb⟩
        rw [chain_nil] at hm
        subst hm
        exact ⟨hop, hb⟩
  | cons x xs ih =>
      intro a b
      rw [List.cons_append, chain_cons]
      constructor
      · rintro ⟨hx, hch⟩
        rw [ih] at hch
        obtain ⟨m, hm, hop, hb⟩ := hch
        exact ⟨m, ⟨hx, hm⟩, hop, hb⟩
      · rintro ⟨m, hm, hop, hb⟩
        rw [chain_cons] at hm
        obtain ⟨hx, hm2⟩ := hm
        exact ⟨hx, (ih _ _).mpr ⟨m, hm2, hop, hb⟩⟩

/-- One unfolding step of `undoN`. -/
theorem undoN_succ (n : ℕ) (s : EditState) :
    undoN (n + 1) s = undoN n (undoStep s).1 := rfl

/-- One unfolding step of `redoN`. -/
theorem redoN_succ (n : ℕ) (s : EditState) :
    redoN (n + 1) s = redoN n (redoStep s).1 := rfl

/-- `undo` at a positive cursor: re-applies the old values of the operation
below the cursor and decrements it. -/
theorem undoStep_pos (b : List ℤ) (O : List EditOperation) (c L : ℕ) :
    undoStep ⟨b, ⟨O, c + 1, L⟩⟩
      = (⟨applyOld b (O.getD c ⟨[]⟩), ⟨O, c, L⟩⟩, true) := by
  unfold undoStep
  simp

/-- `redo` below the stack length: re-applies the new values of the
operation at the cursor and increments it. -/
theorem redoStep_lt (a : List ℤ) (O : List EditOperation) (c L : ℕ)
    (h : c < O.length) :
    redoStep ⟨a, ⟨O, c, L⟩⟩
      = (⟨applyNew a (O.getD c ⟨[]⟩), ⟨O, c + 1, L⟩⟩, true) := by
  unfold redoStep
  simp [h]

/-- Undoing a valid history of length `n` from cursor `k + n` rewinds the
array to the history's starting state and the cursor to `k`. -/
theorem undoN_chain (O2 : List EditOperation) :
    ∀ (a b : List ℤ) (O : List EditOperation) (k L : ℕ),
      Chain a O2 b →
      (∀ j : ℕ, j < O2.length → O.getD (k + j) ⟨[]⟩ = O2.getD j ⟨[]⟩) →
      undoN O2.length ⟨b, ⟨O, k + O2.length, L⟩⟩ = ⟨a, ⟨O, k, L⟩⟩ := by
  induction O2 using List.reverseRecOn with
  | nil =>
      intro a b O k L hch _
      rw [chain_nil] at hch
      subst hch
      rfl
  | append_singleton O2p op ih =>
      intro a b O k L hch hget
      rw [chain_snoc] at hch
      obtain ⟨m, hm, ⟨idxs, v, hop⟩, hb⟩ := hch
      simp only [List.length_append, List.length_cons, List.length_nil,
        Nat.zero_add]
      have harith : k + (O2p.length + 1) = (k + O2p.length) + 1 := by omega
      rw [harith, undoN_succ, undoStep_pos]
      have hgetop : O.getD (k + O2p.length) ⟨[]⟩ = op := by
        have h1 := hget O2p.length
          (by simp only [List.length_append, List.length_cons,
            List.length_nil]; omega)
        rw [List.getD_append_right O2p [op] ⟨[]⟩ O2p.length (le_refl _)] at h1
        simpa using h1
      rw [hgetop, hb, hop, applyOld_applyNew]
      apply ih a m O k L hm
      intro j hj
      have h2 := hget j
        (by simp only [List.length_append, List.length_cons,
          List.length_nil]; omega)
      rw [h2]
      exact List.getD_append O2p [op] ⟨[]⟩ j hj

/-- Redoing a valid history of length `n` from cursor `k` replays the array
to the history's final state and moves the cursor to `k + n`. -/
theorem redoN_chain (O2 : List EditOperation) :
    ∀ (a b : List ℤ) (O : List EditOperation) (k L : ℕ),
      Chain a O2 b →
      k + O2.length ≤ O.length →
      (∀ j : ℕ, j < O2.length → O.getD (k + j) ⟨[]⟩ = O2.getD j ⟨[]⟩) →
      redoN O2.length ⟨a, ⟨O, k, L⟩⟩ = ⟨b, ⟨O, k + O2.length, L⟩⟩ := by
  induction O2 with
  | nil =>
      intro a b O k L hch _ _
      rw [chain_nil] at hch
      subst hch
      rfl
  | cons op rest ih =>
      intro a b O k L hch hle hget
      rw [chain_cons] at hch
      obtain ⟨⟨idxs, v, hop⟩, hrest⟩ := hch
      simp only [List.length_cons] at hle ⊢
      rw [redoN_succ, redoStep_lt a O k L (by omega)]
      have hgetop : O.getD k ⟨[]⟩ = op := by
        have h1 := hget 0 (by simp)
        simpa using h1
      rw [hgetop]
      have harith : k + (rest.length + 1) = (k + 1) + rest.length := by omega
      rw [harith]
      apply ih (applyNew a op) b O (k + 1) L hrest (by omega)
      intro j hj
      have h2 := hget (j + 1) (by simp only [List.length_cons]; omega)
      rw [show k + 1 + j = k + (j + 1) by omega, h2]
      simp

/-- Running a sequence of edits from a saturated-cursor stack with enough
remaining capacity appends a valid history and keeps the cursor at the
top. -/
theorem runEdits_spec (es : List (List ℕ × ℤ)) :
    ∀ (a : List ℤ) (O : List EditOperation) (L : ℕ),
      O.length + es.length ≤ L →
      ∃ (O2 : List EditOperation) (b : List ℤ),
        runEdits ⟨a, ⟨O, O.length, L⟩⟩ es
            = ⟨b, ⟨O ++ O2, O.length + O2.length, L⟩⟩ ∧
          Chain a O2 b ∧ O2.length = es.length := by
  induction es with
  | nil =>
      intro a O L _
      exact ⟨[], a, by simp [runEdits], rfl, rfl⟩
  | cons e es ih =>
      intro a O L hle
      simp only [List.length_cons] at hle
      have hpush : (UndoStack.mk O O.length L).push (mkOp a e.1 e.2)
          = ⟨O ++ [mkOp a e.1 e.2], (O ++ [mkOp a e.1 e.2]).length, L⟩ := by
        unfold UndoStack.push
        rw [List.take_length]
        rw [if_neg (by simp only [List.length_append, List.length_cons,
          List.length_nil]; omega)]
      have hrun1 : runEdits ⟨a, ⟨O, O.length, L⟩⟩ (e :: es)
          = runEdits ⟨applyNew a (mkOp a e.1 e.2),
              ⟨O ++ [mkOp a e.1 e.2], (O ++ [mkOp a e.1 e.2]).length, L⟩⟩ es := by
        show runEdits ⟨applyNew a (mkOp a e.1 e.2),
            (UndoStack.mk O O.length L).push (mkOp a e.1 e.2)⟩ es = _
        rw [hpush]
      obtain ⟨O2, b, hrun2, hch, hlen2⟩ :=
        ih (applyNew a (mkOp a e.1 e.2)) (O ++ [mkOp a e.1 e.2]) L
          (by simp only [List.length_append, List.length_cons,
            List.length_nil]; omega)
      refine ⟨mkOp a e.1 e.2 :: O2, b, ?_, ?_, ?_⟩
      · rw [hrun1, hrun2]
        have h1 : (O ++ [mkOp a e.1 e.2]) ++ O2 = O ++ mkOp a e.1 e.2 :: O2 := by
          rw [List.append_assoc, List.singleton_append]
        have h2 : (O ++ [mkOp a e.1 e.2]).length + O2.length
            = O.length + (mkOp a e.1 e.2 :: O2).length := by
          simp only [List.length_append, List.length_cons, List.length_nil]
          omega
        rw [h1, h2]
      · exact ⟨⟨e.1, e.2, rfl⟩, hch⟩
      · simp [hlen2]

/-- C1 counterexample: with a history depth limit of 1, performing the two
edits `set index 0 to 1` then `set index 0 to 2` on the array `[0]` evicts
the first operation, so undoing twice leaves `[1]`, not the pre-edit `[0]` —
refuting the claim for sequences longer than the configured depth limit. -/
theorem undo_redo_eviction_counterexample :
    (undoN 2 (runEdits ⟨[0], emptyStack 1⟩ [([0], 1), ([0], 2)])).arr
      ≠ [0] := by decide

/-- C1 amended: for any sequence of `n` completed edits with `n` at most the
configured history depth limit (so that no eviction occurs), undoing `n`
times restores the backing array exactly to its pre-edit state, and redoing
`n` times afterwards restores it exactly to its post-edit state. -/
theorem undo_redo_round_trip (a : List ℤ) (L : ℕ) (es : List (List ℕ × ℤ))
    (hlen : es.length ≤ L) :
    (undoN es.length (runEdits ⟨a, emptyStack L⟩ es)).arr = a ∧
    (redoN es.length (undoN es.length (runEdits ⟨a, emptyStack L⟩ es))).arr
      = (runEdits ⟨a, emptyStack L⟩ es).arr := by
  have he : EditState.mk a (emptyStack L) = ⟨a, ⟨[], 0, L⟩⟩ := rfl
  obtain ⟨O2, b, hrun, hch, hl⟩ :=
    runEdits_spec es a [] L (by simpa using hlen)
  simp only [List.nil_append, List.length_nil, Nat.zero_add] at hrun
  have hget : ∀ j : ℕ, j < O2.length →
      O2.getD (0 + j) ⟨[]⟩ = O2.getD j ⟨[]⟩ := by
    intro j _
    rw [Nat.zero_add]
  have hu := undoN_chain O2 a b O2 0 L hch hget
  simp only [Nat.zero_add] at hu
  have hr := redoN_chain O2 a b O2 0 L hch (by omega) hget
  simp only [Nat.zero_add] at hr
  rw [he, hrun, ← hl, hu, hr]
  exact ⟨rfl, rfl⟩

/-- Witness for C1 (amended) at a concrete two-edit run within the depth
limit. -/
theorem undo_redo_round_trip_witness :
    ([([0], 1), ([0, 1], 2)] : List (List ℕ × ℤ)).length ≤ 10 ∧
    ((undoN ([([0], 1), ([0, 1], 2)] : List (List ℕ × ℤ)).length
        (runEdits ⟨[0, 5], emptyStack 10⟩ [([0], 1), ([0, 1], 2)])).arr
        = [0, 5] ∧
     (redoN ([([0], 1), ([0, 1], 2)] : List (List ℕ × ℤ)).length
        (undoN ([([0], 1), ([0, 1], 2)] : List (List ℕ × ℤ)).length
          (runEdits ⟨[0, 5], emptyStack 10⟩ [([0], 1), ([0, 1], 2)]))).arr
        = (runEdits ⟨[0, 5], emptyStack 10⟩ [([0], 1), ([0, 1], 2)]).arr) :=
  ⟨by decide, undo_redo_round_trip [0, 5] 10 [([0], 1), ([0, 1], 2)] (by decide)⟩

/-- One axis of the slab method: for a nonzero direction component and a
non-empty slab, the parameter interval between the two plane hits is exactly
the set of parameters whose ray point lies inside the slab. -/
theorem slab_axis_iff (p d lo hi t : ℚ) (hd : d ≠ 0) (hlohi : lo ≤ hi) :
    (min ((lo - p) / d) ((hi - p) / d) ≤ t ∧
      t ≤ max ((lo - p) / d) ((hi - p) / d)) ↔
    (lo ≤ p + t * d ∧ p + t * d ≤ hi) := by
  rcases lt_or_gt_of_ne hd with hneg | hpos
  · have horder : (hi - p) / d ≤ (lo - p) / d :=
      div_le_div_of_nonpos_of_le hneg.le (by linarith)
    rw [min_eq_right horder, max_eq_left horder,
      div_le_iff_of_neg hneg, le_div_iff_of_neg hneg]
    constructor
    · rintro ⟨h1, h2⟩
      constructor <;> linarith
    · rintro ⟨h1, h2⟩
      constructor <;> linarith
  · have horder : (lo - p) / d ≤ (hi - p) / d := by
      rw [div_le_div_iff_of_pos_right hpos]
      linarith
    rw [min_eq_left horder, max_eq_right horder,
      div_le_iff₀ hpos, le_div_iff₀ hpos]
    constructor
    · rintro ⟨h1, h2⟩
      constructor <;> linarith
    · rintro ⟨h1, h2⟩
      constructor <;> linarith

/-- The slab fold computes exactly the conjunction of the per-axis
constraints. -/
theorem slabAxes_ok (axes : List SlabAxis)
    (hvalid : ∀ ax ∈ axes, ax.lo ≤ ax.hi) (t : ℚ) :
    SlabAccOK (slabAxes axes) t ↔ InSlab axes t := by
  induction axes with
  | nil =>
      simp [slabAxes, SlabAccOK, InSlab]
  | cons ax axes ih =>
      have hvalid2 : ∀ a ∈ axes, a.lo ≤ a.hi :=
        fun a ha => hvalid a (List.mem_cons_of_mem ax ha)
      have ihh := ih hvalid2
      have hvax : ax.lo ≤ ax.hi := hvalid ax (List.mem_cons_self ax axes)
      have hcons : InSlab (ax :: axes) t ↔
          (ax.lo ≤ ax.p + t * ax.d ∧ ax.p + t * ax.d ≤ ax.hi) ∧
            InSlab axes t := by
        unfold InSlab
        exact List.forall_mem_cons
      rw [show slabAxes (ax :: axes) = slabStep ax (slabAxes axes) from rfl,
        hcons]
      rcases hacc : slabAxes axes with _ | cur
      · rw [hacc] at ihh
        simp only [SlabAccOK] at ihh ⊢
        simp only [slabStep, SlabAccOK]
        constructor
        · exact False.elim
        · rintro ⟨_, h2⟩
          exact ihh.mpr h2
      · rw [hacc] at ihh
        by_cases hd : ax.d = 0
        · by_cases hin : ax.lo ≤ ax.p ∧ ax.p ≤ ax.hi
          · simp only [slabStep, hd, if_true, if_pos hin]
            rw [ihh]
            constructor
            · intro hia
              exact ⟨⟨by rw [mul_zero, add_zero]; exact hin.1,
                by rw [mul_zero, add_zero]; exact hin.2⟩, hia⟩
            · exact fun h => h.2
          · simp only [slabStep, hd, if_true, if_neg hin]
            simp only [SlabAccOK]
            constructor
            · exact False.elim
            · rintro ⟨h1, _⟩
              rw [mul_zero, add_zero] at h1
              exact hin h1
        · have haxiff := slab_axis_iff ax.p ax.d ax.lo ax.hi t hd hvax
          rcases cur with _ | ⟨u, v⟩
          · simp only [slabStep, hd, if_false, SlabAccOK] at ihh ⊢
            rw [haxiff]
            tauto
          · simp only [slabStep, hd, if_false, SlabAccOK] at ihh ⊢
            rw [max_le_iff, le_min_iff]
            constructor
            · rintro ⟨⟨h1, h2⟩, h3, h4⟩
              exact ⟨haxiff.mp ⟨h2, h4⟩, ihh.mp ⟨h1, h3⟩⟩
            · rintro ⟨h1, h2⟩
              obtain ⟨h3, h4⟩ := haxiff.mpr h1
              obtain ⟨h5, h6⟩ := ihh.mpr h2
              exact ⟨⟨h5, h3⟩, h6, h4⟩

/-- As long as some axis has a nonzero direction component, the slab fold
always produces a bounded interval or a miss. -/
theorem slabAxes_ne_some_none (axes : List SlabAxis)
    (hd : ∃ ax ∈ axes, ax.d ≠ 0) : slabAxes axes ≠ some none := by
  induction axes with
  | nil => simp at hd
  | cons ax axes ih =>
      rw [show slabAxes (ax :: axes) = slabStep ax (slabAxes axes) from rfl]
      rcases hacc : slabAxes axes with _ | cur
      · simp [slabStep]
      · by_cases hdz : ax.d = 0
        · have hd2 : ∃ a ∈ axes, a.d ≠ 0 := by
            rcases hd with ⟨a, ha, hda⟩
            rcases List.mem_cons.mp ha with h1 | h1
            · exact absurd (h1 ▸ hda) (by simp [hdz])
            · exact ⟨a, h1, hda⟩
          have hne := ih hd2
          rw [hacc] at hne
          simp only [slabStep, hdz, if_true]
          by_cases hin : ax.lo ≤ ax.p ∧ ax.p ≤ ax.hi
          · rw [if_pos hin]
            exact hne
          · rw [if_neg hin]
            simp
        · simp only [slabStep, hdz, if_false]
          rcases cur with _ | ⟨u, v⟩
          · simp
          · simp

/-- The slab constraints over the displayed axes say exactly that the ray
point lies in the data bounding box. -/
theorem inSlab_displayed_axes (pd dd shape : List ℚ) (dims : List ℕ)
    (t : ℚ) :
    InSlab (displayed_axes pd dd shape dims) t ↔
      InDataBoundingBox pd dd shape dims t := by
  unfold InSlab InDataBoundingBox displayed_axes
  exact List.forall_mem_map

/-- C8: `get_ray_intersections` returns `(none, none)` exactly when no point
of the camera ray lies in the data bounding box over the displayed
dimensions, and otherwise returns the entry and exit points of the ray
through the box in data coordinates: two points of the data-space ray whose
parameter interval is exactly the set of ray parameters inside the box. -/
theorem get_ray_intersections_spec
    (scale translate shape position direction : List ℚ) (dims : List ℕ)
    (hvalid : ∀ i ∈ dims, (0 : ℚ) ≤ shape.getD i 0)
    (hdir : ∃ i ∈ dims,
      (world_to_data_vector scale direction).getD i 0 ≠ 0) :
    (get_ray_intersections scale translate shape position direction dims
        = (none, none) ↔
      ∀ t : ℚ, ¬ InDataBoundingBox
        (world_to_data_point scale translate position)
        (world_to_data_vector scale direction) shape dims t) ∧
    (∀ s e : List ℚ,
      get_ray_intersections scale translate shape position direction dims
          = (some s, some e) →
      ∃ t0 t1 : ℚ, t0 ≤ t1 ∧
        s = ray_point (world_to_data_point scale translate position)
              (world_to_data_vector scale direction) t0 ∧
        e = ray_point (world_to_data_point scale translate position)
              (world_to_data_vector scale direction) t1 ∧
        ∀ t : ℚ, InDataBoundingBox
            (world_to_data_point scale translate position)
            (world_to_data_vector scale direction) shape dims t ↔
          (t0 ≤ t ∧ t ≤ t1)) := by
  have hvalidax : ∀ ax ∈ displayed_axes
      (world_to_data_point scale translate position)
      (world_to_data_vector scale direction) shape dims, ax.lo ≤ ax.hi := by
    intro ax hax
    unfold displayed_axes at hax
    obtain ⟨i, hi, rfl⟩ := List.mem_map.mp hax
    exact hvalid i hi
  have hdax : ∃ ax ∈ displayed_axes
      (world_to_data_point scale translate position)
      (world_to_data_vector scale direction) shape dims, ax.d ≠ 0 := by
    obtain ⟨i, hi, hne⟩ := hdir
    refine ⟨⟨(world_to_data_point scale translate position).getD i 0,
      (world_to_data_vector scale direction).getD i 0, 0,
      shape.getD i 0⟩, ?_, hne⟩
    unfold displayed_axes
    exact List.mem_map.mpr ⟨i, hi, rfl⟩
  have master : ∀ t : ℚ,
      SlabAccOK (slabAxes (displayed_axes
        (world_to_data_point scale translate position)
        (world_to_data_vector scale direction) shape dims)) t ↔
      InDataBoundingBox (world_to_data_point scale translate position)
        (world_to_data_vector scale direction) shape dims t := by
    intro t
    rw [slabAxes_ok _ hvalidax, inSlab_displayed_axes]
  have hnetop := slabAxes_ne_some_none _ hdax
  rcases hI : intersect_line_with_bounding_box (displayed_axes
      (world_to_data_point scale translate position)
      (world_to_data_vector scale direction) shape dims) with _ | ⟨t0, t1⟩
  · have hmiss : ∀ t : ℚ, ¬ InDataBoundingBox
        (world_to_data_point scale translate position)
        (world_to_data_vector scale direction) shape dims t := by
      intro t hbox
      have hacc := (master t).mpr hbox
      rcases hS : slabAxes (displayed_axes
          (world_to_data_point scale translate position)
          (world_to_data_vector scale direction) shape dims) with _ | cur
      · rw [hS] at hacc
        exact hacc
      · rcases cur with _ | ⟨u, v⟩
        · exact hnetop hS
        · rw [hS] at hacc
          simp only [SlabAccOK] at hacc
          simp only [intersect_line_with_bounding_box, hS] at hI
          by_cases huv : u ≤ v
          · rw [if_pos huv] at hI
            exact Option.noConfusion hI
          · exact huv (le_trans hacc.1 hacc.2)
    constructor
    · simp only [get_ray_intersections, hI]
      constructor
      · intro _
        exact hmiss
      · intro _
        trivial
    · intro s e heq
      simp only [get_ray_intersections, hI] at heq
      exact absurd heq (by simp)
  · have hsome : slabAxes (displayed_axes
        (world_to_data_point scale translate position)
        (world_to_data_vector scale direction) shape dims)
          = some (some (t0, t1)) ∧ t0 ≤ t1 := by
      rcases hS : slabAxes (displayed_axes
          (world_to_data_point scale translate position)
          (world_to_data_vector scale direction) shape dims) with _ | cur
      · simp only [intersect_line_with_bounding_box, hS] at hI
        exact absurd hI (by simp)
      · rcases cur with _ | ⟨u, v⟩
        · exact absurd hS hnetop
        · simp only [intersect_line_with_bounding_box, hS] at hI
          by_cases huv : u ≤ v
          · rw [if_pos huv] at hI
            have h1 := Option.some.inj hI
            have h1a : u = t0 := congrArg Prod.fst h1
            have h1b : v = t1 := congrArg Prod.snd h1
            subst h1a
            subst h1b
            exact ⟨rfl, huv⟩
          · rw [if_neg huv] at hI
            exact Option.noConfusion hI
    obtain ⟨hS, ht01⟩ := hsome
    have hchar : ∀ t : ℚ, InDataBoundingBox
        (world_to_data_point scale translate position)
        (world_to_data_vector scale direction) shape dims t ↔
        (t0 ≤ t ∧ t ≤ t1) := by
      intro t
      rw [← master t, hS]
      exact Iff.rfl
    constructor
    · simp only [get_ray_intersections, hI]
      constructor
      · intro heq
        exact absurd heq (by simp)
      · intro hm2
        exact absurd ((hchar t0).mpr ⟨le_refl t0, ht01⟩) (hm2 t0)
    · intro s e heq
      simp only [get_ray_intersections, hI] at heq
      refine ⟨t0, t1, ht01, ?_, ?_, hchar⟩
      · have h1 : some (ray_point (world_to_data_point scale translate position)
            (world_to_data_vector scale direction) t0) = some s :=
          congrArg Prod.fst heq
        exact (Option.some.inj h1).symm
      · have h2 : some (ray_point (world_to_data_point scale translate position)
            (world_to_data_vector scale direction) t1) = some e :=
          congrArg Prod.snd heq
        exact (Option.some.inj h2).symm

/-- Witness for C8 at the concrete scenario of `test_cursor_ray_3d`: data
shape `(5, 20, 20, 20)`, scale `(1, 1, 2, 1)`, translate `(0, 5, 5, 5)`,
click position `[1, 10, 27, 10]`, view direction `[0, 1, 0, 0]`, displayed
dimensions `[1, 2, 3]`. -/
theorem get_ray_intersections_spec_witness :
    ((∀ i ∈ [1, 2, 3],
        (0 : ℚ) ≤ ([5, 20, 20, 20] : List ℚ).getD i 0) ∧
     (∃ i ∈ [1, 2, 3],
        (world_to_data_vector [1, 1, 2, 1] [0, 1, 0, 0]).getD i 0 ≠ 0)) ∧
    ((get_ray_intersections [1, 1, 2, 1] [0, 5, 5, 5] [5, 20, 20, 20]
          [1, 10, 27, 10] [0, 1, 0, 0] [1, 2, 3] = (none, none) ↔
        ∀ t : ℚ, ¬ InDataBoundingBox
          (world_to_data_point [1, 1, 2, 1] [0, 5, 5, 5] [1, 10, 27, 10])
          (world_to_data_vector [1, 1, 2, 1] [0, 1, 0, 0])
          [5, 20, 20, 20] [1, 2, 3] t) ∧
     (∀ s e : List ℚ,
        get_ray_intersections [1, 1, 2, 1] [0, 5, 5, 5] [5, 20, 20, 20]
            [1, 10, 27, 10] [0, 1, 0, 0] [1, 2, 3] = (some s, some e) →
        ∃ t0 t1 : ℚ, t0 ≤ t1 ∧
          s = ray_point
                (world_to_data_point [1, 1, 2, 1] [0, 5, 5, 5] [1, 10, 27, 10])
                (world_to_data_vector [1, 1, 2, 1] [0, 1, 0, 0]) t0 ∧
          e = ray_point
                (world_to_data_point [1, 1, 2, 1] [0, 5, 5, 5] [1, 10, 27, 10])
                (world_to_data_vector [1, 1, 2, 1] [0, 1, 0, 0]) t1 ∧
          ∀ t : ℚ, InDataBoundingBox
              (world_to_data_point [1, 1, 2, 1] [0, 5, 5, 5] [1, 10, 27, 10])
              (world_to_data_vector [1, 1, 2, 1] [0, 1, 0, 0])
              [5, 20, 20, 20] [1, 2, 3] t ↔
            (t0 ≤ t ∧ t ≤ t1))) :=
  ⟨⟨by intro i hi; fin_cases hi <;> norm_num,
    ⟨1, by simp, by norm_num [world_to_data_vector]⟩⟩,
    get_ray_intersections_spec [1, 1, 2, 1] [0, 5, 5, 5] [5, 20, 20, 20]
      [1, 10, 27, 10] [0, 1, 0, 0] [1, 2, 3]
      (by intro i hi; fin_cases hi <;> norm_num)
      ⟨1, by simp, by norm_num [world_to_data_vector]⟩⟩

end NapariLabels
